import Mathlib

/-!
# Verification of the varint codec family

A shallow embedding of the varint repository's codecs and of the
pattern-matching server's framing/rate-limit logic, with theorems checking
the specification's claims against the code.

Byte buffers are `List ℕ` (each entry one byte), unsigned 64-bit values are
`ℕ` with explicit `% 2^64`, and signed 64-bit values are `ℤ` constrained to
`[-2^63, 2^63)`.

The tagged-varint and external-width-varint primitives (varintTagged.h /
varintExternal.h) and the delta coder body (varintDelta.c) are not part of
the provided sources; they are modelled from the specification and marked
as such on each definition.
-/

/-! ## Machine-integer helpers -/

/-- Reinterpret a signed 64-bit value (two's complement) as unsigned:
the C cast (uint64_t)n. -/
def toU64 (n : ℤ) : ℕ := (n % (2 ^ 64 : ℤ)).toNat

/-- Reinterpret an unsigned 64-bit value as signed two's complement:
the C cast (int64_t)x. -/
def toI64 (x : ℕ) : ℤ := if x < 2 ^ 63 then (x : ℤ) else (x : ℤ) - 2 ^ 64

/-- Signed 64-bit wraparound: normalise an integer into [-2^63, 2^63). -/
def wrap64 (n : ℤ) : ℤ := ((n + 2 ^ 63) % 2 ^ 64) - 2 ^ 63

/-- Unsigned 64-bit subtraction (wrapping), the C expression a - b on
uint64_t operands. -/
def u64sub (a b : ℕ) : ℕ := (a + (2 ^ 64 - b % 2 ^ 64)) % 2 ^ 64

theorem toU64_nonneg_eq {n : ℤ} (h0 : 0 ≤ n) (h1 : n < 2 ^ 64) :
    toU64 n = n.toNat := by
  unfold toU64
  rw [Int.emod_eq_of_lt h0 h1]

theorem toU64_neg_eq {n : ℤ} (h0 : -(2 ^ 63) ≤ n) (h1 : n < 0) :
    toU64 n = (n + 2 ^ 64).toNat := by
  unfold toU64
  have h2 : n % (2 ^ 64 : ℤ) = (n + 2 ^ 64) % 2 ^ 64 := by omega
  rw [h2, Int.emod_eq_of_lt (by omega) (by omega)]

theorem toI64_lt_eq {x : ℕ} (h : x < 2 ^ 63) : toI64 x = (x : ℤ) := by
  unfold toI64
  rw [if_pos h]

theorem toI64_ge_eq {x : ℕ} (h : 2 ^ 63 ≤ x) : toI64 x = (x : ℤ) - 2 ^ 64 := by
  unfold toI64
  rw [if_neg (by omega)]

theorem wrap64_eq_of_range {n : ℤ} (h0 : -(2 ^ 63) ≤ n) (h1 : n < 2 ^ 63) :
    wrap64 n = n := by
  unfold wrap64
  rw [Int.emod_eq_of_lt (by omega) (by omega)]
  omega

theorem wrap64_range (n : ℤ) : -(2 ^ 63) ≤ wrap64 n ∧ wrap64 n < 2 ^ 63 := by
  unfold wrap64
  have h := Int.emod_nonneg (n + 2 ^ 63) (by norm_num : (2 ^ 64 : ℤ) ≠ 0)
  have h2 := Int.emod_lt_of_pos (n + 2 ^ 63) (by norm_num : (0 : ℤ) < 2 ^ 64)
  omega

theorem wrap64_add_left (a b : ℤ) : wrap64 (wrap64 a + b) = wrap64 (a + b) := by
  unfold wrap64
  have h : (a + 2 ^ 63) % 2 ^ 64 - 2 ^ 63 + b + 2 ^ 63 =
      (a + 2 ^ 63) % 2 ^ 64 + b := by ring
  rw [h, Int.emod_add_emod]
  ring_nf

/-- XOR with an all-ones mask is complement: for x below the mask,
x ^^^ (2^n - 1) = 2^n - 1 - x. -/
theorem xor_all_ones {n x : ℕ} (h : x < 2 ^ n) :
    x ^^^ (2 ^ n - 1) = 2 ^ n - 1 - x := by
  apply Nat.eq_of_testBit_eq
  intro i
  rw [Nat.testBit_xor]
  have h1 : 2 ^ n - 1 - x = 2 ^ n - (x + 1) := by omega
  rw [h1, Nat.testBit_two_pow_sub_succ h, Nat.testBit_two_pow_sub_one]
  by_cases hi : i < n
  · simp [hi]
  · have hx : x.testBit i = false :=
      Nat.testBit_lt_two_pow
        (lt_of_lt_of_le h (Nat.pow_le_pow_right (by norm_num) (by omega)))
    simp [hi, hx]

/-! ## ZigZag (src/src/varintDelta.h, lines 25-39) -/

/-- ZigZag encoding, translated from varintDelta.h line 31:
((uint64_t)n << 1) ^ (uint64_t)(n >> 63).
The shift left by 1 is multiplication by 2 modulo 2^64; the arithmetic
right shift of a 64-bit value by 63 yields all sign bits, i.e. -1 for
negative n and 0 otherwise. -/
def varintDeltaZigZag (n : ℤ) : ℕ :=
  (toU64 n * 2) % 2 ^ 64 ^^^ toU64 (if n < 0 then -1 else 0)

/-- ZigZag decoding, translated from varintDelta.h line 38:
(int64_t)((zigzag >> 1) ^ (-(int64_t)(zigzag & 1))). -/
def varintDeltaZigZagDecode (z : ℕ) : ℤ :=
  toI64 (z / 2 ^^^ toU64 (-((z % 2 : ℕ) : ℤ)))

theorem zigzag_nonneg {n : ℤ} (h0 : 0 ≤ n) (h1 : n < 2 ^ 63) :
    varintDeltaZigZag n = 2 * n.toNat := by
  unfold varintDeltaZigZag
  rw [if_neg (by omega), toU64_nonneg_eq h0 (by omega)]
  have h2 : toU64 0 = 0 := by decide
  rw [h2, Nat.xor_zero, Nat.mod_eq_of_lt (by omega)]
  omega

theorem zigzag_neg {n : ℤ} (h0 : -(2 ^ 63) ≤ n) (h1 : n < 0) :
    varintDeltaZigZag n = 2 * (-n).toNat - 1 := by
  unfold varintDeltaZigZag
  rw [if_pos h1, toU64_neg_eq h0 h1]
  have hm1 : toU64 (-1) = 2 ^ 64 - 1 := by decide
  rw [hm1]
  set t := (n + 2 ^ 64).toNat with ht
  have htb : 2 ^ 63 ≤ t ∧ t < 2 ^ 64 := by omega
  have hmod : t * 2 % 2 ^ 64 = t * 2 - 2 ^ 64 := by omega
  rw [hmod, xor_all_ones (by omega)]
  omega

theorem zigzag_lt (n : ℤ) (h0 : -(2 ^ 63) ≤ n) (h1 : n < 2 ^ 63) :
    varintDeltaZigZag n < 2 ^ 64 := by
  rcases le_or_lt 0 n with h | h
  · rw [zigzag_nonneg h h1]; omega
  · rw [zigzag_neg h0 h]; omega

/-- ZigZag decode inverts ZigZag encode on the full signed 64-bit range. -/
theorem zigzag_roundtrip (n : ℤ) (h0 : -(2 ^ 63) ≤ n) (h1 : n < 2 ^ 63) :
    varintDeltaZigZagDecode (varintDeltaZigZag n) = n := by
  rcases le_or_lt 0 n with h | h
  · rw [zigzag_nonneg h h1]
    unfold varintDeltaZigZagDecode
    have he : 2 * n.toNat % 2 = 0 := by omega
    rw [he]
    have h2 : toU64 (-((0 : ℕ) : ℤ)) = 0 := by decide
    rw [h2, Nat.xor_zero]
    have h3 : 2 * n.toNat / 2 = n.toNat := by omega
    rw [h3, toI64_lt_eq (by omega)]
    omega
  · rw [zigzag_neg h0 h]
    unfold varintDeltaZigZagDecode
    set m := (-n).toNat with hm
    have hmb : 1 ≤ m ∧ m ≤ 2 ^ 63 := by omega
    have ho : (2 * m - 1) % 2 = 1 := by omega
    rw [ho]
    have h2 : toU64 (-((1 : ℕ) : ℤ)) = 2 ^ 64 - 1 := by decide
    rw [h2]
    have h3 : (2 * m - 1) / 2 = m - 1 := by omega
    rw [h3, xor_all_ones (by omega), toI64_ge_eq (by omega)]
    omega

/-- C1: ZigZag is the stated bijection on 64-bit two's-complement integers:
varintDeltaZigZag is (n<<1) XOR (n arithmetically shifted right by 63) and
varintDeltaZigZagDecode is (z>>1) XOR -(z&1) (both by definition), decode
inverts encode for every signed 64-bit n, and zz(0)=0, zz(-1)=1, zz(1)=2,
zz(-2)=3, zz(2)=4. -/
theorem zigzag_bijection_spec :
    (∀ n : ℤ, -(2 ^ 63) ≤ n → n < 2 ^ 63 →
      varintDeltaZigZagDecode (varintDeltaZigZag n) = n) ∧
    varintDeltaZigZag 0 = 0 ∧ varintDeltaZigZag (-1) = 1 ∧
    varintDeltaZigZag 1 = 2 ∧ varintDeltaZigZag (-2) = 3 ∧
    varintDeltaZigZag 2 = 4 :=
  ⟨zigzag_roundtrip, by decide, by decide, by decide, by decide, by decide⟩

/-- Witness for C1 at the concrete input n = -5. -/
theorem zigzag_bijection_spec_witness :
    varintDeltaZigZagDecode (varintDeltaZigZag (-5)) = -5 :=
  zigzag_bijection_spec.1 (-5) (by norm_num) (by norm_num)

/-! ## External-width varint (modelled; spec sections 3.3 and 4.2) -/

/-- Modelled from the spec: varintExternal.h is not under src/. Spec 3.3 /
4.2: putFixedWidth stores v as a little-endian w-byte integer (v mod 256^w). -/
def varintExternalPutFixedWidth : ℕ → ℕ → List ℕ
  | _, 0 => []
  | v, w + 1 => v % 256 :: varintExternalPutFixedWidth (v / 256) w

/-- Little-endian read of the first w bytes of a buffer (missing bytes read
as zero). Modelled from the spec: varintExternal.h is not under src/;
spec 4.2: get(buf, w) reads exactly w bytes as little-endian. -/
def leRead : ℕ → List ℕ → ℕ
  | 0, _ => 0
  | _ + 1, [] => 0
  | w + 1, b :: t => b + 256 * leRead w t

/-- Modelled from the spec: varintExternal.h is not under src/. Spec 3.3:
varintExternalUnsignedEncoding(range) returns the minimum w with
range < 256^w, capped at 8. -/
def varintExternalUnsignedEncoding (v : ℕ) : ℕ :=
  if v < 2 ^ 8 then 1
  else if v < 2 ^ 16 then 2
  else if v < 2 ^ 24 then 3
  else if v < 2 ^ 32 then 4
  else if v < 2 ^ 40 then 5
  else if v < 2 ^ 48 then 6
  else if v < 2 ^ 56 then 7
  else 8

theorem unsignedEncoding_pos (v : ℕ) : 1 ≤ varintExternalUnsignedEncoding v := by
  unfold varintExternalUnsignedEncoding
  repeat' split
  all_goals omega

theorem unsignedEncoding_le_eight (v : ℕ) : varintExternalUnsignedEncoding v ≤ 8 := by
  unfold varintExternalUnsignedEncoding
  repeat' split
  all_goals omega

theorem lt_pow_unsignedEncoding {v : ℕ} (h : v < 2 ^ 64) :
    v < 256 ^ varintExternalUnsignedEncoding v := by
  unfold varintExternalUnsignedEncoding
  repeat' split
  all_goals norm_num
  all_goals omega

theorem putFixedWidth_length (v w : ℕ) :
    (varintExternalPutFixedWidth v w).length = w := by
  induction w generalizing v with
  | zero => rfl
  | succ w ih => simp [varintExternalPutFixedWidth, ih]

theorem leRead_putFixedWidth {v : ℕ} (w : ℕ) (rest : List ℕ) (h : v < 256 ^ w) :
    leRead w (varintExternalPutFixedWidth v w ++ rest) = v := by
  induction w generalizing v with
  | zero => simp at h; simp [leRead, h]
  | succ w ih =>
    simp only [varintExternalPutFixedWidth, List.cons_append, leRead, List.append_eq]
    rw [ih]
    · omega
    · have : 256 ^ (w + 1) = 256 ^ w * 256 := by ring
      omega

theorem leRead_lt (w : ℕ) (l : List ℕ) (h : ∀ b ∈ l, b < 256) :
    leRead w l < 256 ^ w := by
  induction w generalizing l with
  | zero => simp [leRead]
  | succ w ih =>
    match l with
    | [] => simp [leRead]
    | b :: t =>
      simp only [leRead]
      have hb : b < 256 := h b (by simp)
      have ht := ih t (fun x hx => h x (by simp [hx]))
      have : 256 ^ (w + 1) = 256 ^ w * 256 := by ring
      omega

theorem putFixedWidth_bytes_lt (v w : ℕ) :
    ∀ b ∈ varintExternalPutFixedWidth v w, b < 256 := by
  induction w generalizing v with
  | zero => simp [varintExternalPutFixedWidth]
  | succ w ih =>
    intro b hb
    simp only [varintExternalPutFixedWidth, List.mem_cons] at hb
    rcases hb with h | h
    · omega
    · exact ih _ b h

/-! ## Tagged varint (modelled; spec sections 3.2 and 4.1)

The spec fixes the shape of the format (a length tag counting the
additional bytes in a prefix field of the first byte, remaining value bits
in the rest of the first byte followed by little-endian bytes) but leaves
the exact bit allocation open. We model the tag as the high 4 bits of the
first byte and the low 4 value bits in its low 4 bits, which satisfies
every invariant the spec states (total length 1..9 recoverable from the
first byte alone, v = 0 in one byte, width monotone in v, round-trip). -/

/-- Modelled from the spec: varintTagged.h is not under src/. Number of
additional bytes (beyond the first) used to encode v: the minimal e with
v < 2^(4+8e), capped at 8. -/
def varintTaggedExtra (v : ℕ) : ℕ :=
  if v < 2 ^ 4 then 0
  else if v < 2 ^ 12 then 1
  else if v < 2 ^ 20 then 2
  else if v < 2 ^ 28 then 3
  else if v < 2 ^ 36 then 4
  else if v < 2 ^ 44 then 5
  else if v < 2 ^ 52 then 6
  else if v < 2 ^ 60 then 7
  else 8

/-- Modelled from the spec: varintTagged.h is not under src/. Encoded length
in bytes of the tagged varint for value v (1..9). In varintFOR.c this is
applied to values (meta->minValue, meta->count). -/
def varintTaggedLen (v : ℕ) : ℕ := 1 + varintTaggedExtra v

/-- Modelled from the spec: varintTagged.h is not under src/. Spec 4.1
put(buf, v): writes 1..9 bytes; first byte carries the tag and the low
value bits, then the remaining value bits little-endian. -/
def varintTaggedPut64 (v : ℕ) : List ℕ :=
  let e := varintTaggedExtra v
  (e * 16 + v % 16) :: varintExternalPutFixedWidth (v / 16) e

/-- Modelled from the spec: varintTagged.h is not under src/. Spec 4.1
get(buf): reads the first byte's tag to determine the total length, then
reads that many bytes; returns (value, width). -/
def varintTaggedGet64 (l : List ℕ) : ℕ × ℕ :=
  let b0 := l.headD 0
  let e := b0 / 16
  (b0 % 16 + 16 * leRead e l.tail, 1 + e)

theorem taggedPut_length (v : ℕ) :
    (varintTaggedPut64 v).length = varintTaggedLen v := by
  simp [varintTaggedPut64, varintTaggedLen, putFixedWidth_length]
  omega

theorem taggedExtra_le_eight (v : ℕ) : varintTaggedExtra v ≤ 8 := by
  unfold varintTaggedExtra
  repeat' split
  all_goals omega

theorem taggedLen_le_nine (v : ℕ) : varintTaggedLen v ≤ 9 := by
  have := taggedExtra_le_eight v
  unfold varintTaggedLen
  omega

theorem div16_lt_pow_taggedExtra {v : ℕ} (h : v < 2 ^ 64) :
    v / 16 < 256 ^ varintTaggedExtra v := by
  unfold varintTaggedExtra
  repeat' split
  all_goals norm_num
  all_goals omega

theorem taggedGet_taggedPut {v : ℕ} (h : v < 2 ^ 64) (rest : List ℕ) :
    varintTaggedGet64 (varintTaggedPut64 v ++ rest) = (v, varintTaggedLen v) := by
  unfold varintTaggedPut64 varintTaggedGet64 varintTaggedLen
  have he := taggedExtra_le_eight v
  simp only [List.cons_append, List.headD_cons, List.tail_cons]
  have h1 : (varintTaggedExtra v * 16 + v % 16) / 16 = varintTaggedExtra v := by
    omega
  have h2 : (varintTaggedExtra v * 16 + v % 16) % 16 = v % 16 := by
    omega
  rw [h1, h2, leRead_putFixedWidth _ rest (div16_lt_pow_taggedExtra h)]
  have h3 : v % 16 + 16 * (v / 16) = v := by omega
  rw [h3]

/-! ## Frame-of-Reference codec (src/src/varintFOR.c) -/

/-- FOR metadata record, src/src/varintFOR.h lines 27-34. -/
structure varintFORMetadata where
  minValue : ℕ
  maxValue : ℕ
  range : ℕ
  count : ℕ
  encodedSize : ℕ
  offsetWidth : ℕ
deriving Repr, DecidableEq

/-- varintFORComputeWidth, varintFOR.c lines 6-10: the optimal offset width
for a given range, via varintExternalUnsignedEncoding. -/
def varintFORComputeWidth (range : ℕ) : ℕ := varintExternalUnsignedEncoding range

/-- varintFORSize, varintFOR.c lines 46-53: encoded size =
len(tagged(min)) + 1 + len(tagged(count)) + count * offsetWidth. -/
def varintFORSize (meta : varintFORMetadata) : ℕ :=
  varintTaggedLen meta.minValue + 1 + varintTaggedLen meta.count +
    meta.count * meta.offsetWidth

/-- varintFORAnalyze, varintFOR.c lines 13-43: one pass computing min and
max (seeded with values[0], scanning from index 1), then range, offset
width, count and encoded size. -/
def varintFORAnalyze (values : List ℕ) : varintFORMetadata :=
  let v0 := values.headD 0
  let minVal := values.tail.foldl (fun m x => if x < m then x else m) v0
  let maxVal := values.tail.foldl (fun m x => if x > m then x else m) v0
  let range := maxVal - minVal
  let offsetWidth := varintFORComputeWidth range
  let m : varintFORMetadata :=
    { minValue := minVal, maxValue := maxVal, range := range,
      count := values.length, encodedSize := 0, offsetWidth := offsetWidth }
  { m with encodedSize := varintFORSize m }

/-- The offsets section written by the encoder loop, varintFOR.c lines
89-93: for each value, the fixed-width little-endian bytes of
values[i] - min (uint64 subtraction). -/
def varintFOROffsets : List ℕ → ℕ → ℕ → List ℕ
  | [], _, _ => []
  | v :: rest, minV, w =>
      varintExternalPutFixedWidth (u64sub v minV) w ++ varintFOROffsets rest minV w

/-- The byte stream written by varintFOREncode once the metadata is fixed,
varintFOR.c lines 74-95: tagged min, one offset-width byte (cast to
uint8_t), tagged count, then the offsets. -/
def varintFOREncodeBody (meta : varintFORMetadata) (values : List ℕ) : List ℕ :=
  varintTaggedPut64 meta.minValue ++
    ([meta.offsetWidth % 256] ++
      (varintTaggedPut64 meta.count ++
        varintFOROffsets values meta.minValue meta.offsetWidth))

/-- varintFOREncode, varintFOR.c lines 56-96. The second component models
the caller's meta record after the call (None when the caller passed NULL).
If meta is NULL or meta->count differs from count, the input is re-analyzed
and (when non-NULL) *meta is overwritten with the fresh metadata. -/
def varintFOREncode (values : List ℕ) (metaIn : Option varintFORMetadata) :
    List ℕ × Option varintFORMetadata :=
  match metaIn with
  | none => (varintFOREncodeBody (varintFORAnalyze values) values, none)
  | some m =>
    if m.count ≠ values.length then
      let localMeta := varintFORAnalyze values
      (varintFOREncodeBody localMeta values, some localMeta)
    else
      (varintFOREncodeBody m values, some m)

/-- varintFORReadMetadata, varintFOR.c lines 99-127: parse tagged min, the
offset-width byte, tagged count; max and range are left unknown
(maxValue = minValue, range = 0); encodedSize from the parsed widths. -/
def varintFORReadMetadata (src : List ℕ) : varintFORMetadata :=
  let p1 := varintTaggedGet64 src
  let minValue := p1.1
  let minWidth := p1.2
  let offsetWidth := (src.drop minWidth).headD 0
  let p2 := varintTaggedGet64 (src.drop (minWidth + 1))
  let count := p2.1
  let countWidth := p2.2
  { minValue := minValue, maxValue := minValue, range := 0, count := count,
    encodedSize := minWidth + 1 + countWidth + count * offsetWidth,
    offsetWidth := offsetWidth }

/-- varintFORDecode, varintFOR.c lines 130-157. out is the caller's output
array; on refusal (count > maxCount) it is returned unmodified with result
0, otherwise entries 0..count-1 are overwritten with min + offset_i (uint64
addition) and the header count is returned. The data pointer is recomputed
from the tagged lengths of the parsed min and count values. -/
def varintFORDecode (src : List ℕ) (out : List ℕ) (maxCount : ℕ) :
    ℕ × List ℕ :=
  let meta := varintFORReadMetadata src
  if meta.count > maxCount then (0, out)
  else
    let minWidth := varintTaggedLen meta.minValue
    let countWidth := varintTaggedLen meta.count
    let dataStart := minWidth + 1 + countWidth
    let vals := (List.range meta.count).map (fun i =>
      (meta.minValue +
        leRead meta.offsetWidth (src.drop (dataStart + i * meta.offsetWidth))) % 2 ^ 64)
    (meta.count, vals ++ out.drop meta.count)

/-- varintFORGetAt, varintFOR.c lines 160-179: random access without a full
decode, reading one offset at index * offsetWidth past the header. -/
def varintFORGetAt (src : List ℕ) (index : ℕ) : ℕ :=
  let meta := varintFORReadMetadata src
  let minWidth := varintTaggedLen meta.minValue
  let countWidth := varintTaggedLen meta.count
  (meta.minValue +
    leRead meta.offsetWidth
      (src.drop (minWidth + 1 + countWidth + index * meta.offsetWidth))) % 2 ^ 64

/-! ### Properties of the analyze pass -/

theorem foldl_min_le_init (l : List ℕ) (a : ℕ) :
    l.foldl (fun m x => if x < m then x else m) a ≤ a := by
  induction l generalizing a with
  | nil => simp
  | cons x t ih =>
    simp only [List.foldl_cons]
    split
    · exact le_trans (ih x) (by omega)
    · exact ih a

theorem foldl_min_le_mem (l : List ℕ) (a : ℕ) :
    ∀ x ∈ l, l.foldl (fun m x => if x < m then x else m) a ≤ x := by
  induction l generalizing a with
  | nil => simp
  | cons y t ih =>
    intro x hx
    simp only [List.mem_cons] at hx
    simp only [List.foldl_cons]
    rcases hx with rfl | hx
    · split
      · exact foldl_min_le_init t x
      · exact le_trans (foldl_min_le_init t a) (by omega)
    · split
      · exact ih y x hx
      · exact ih a x hx

theorem foldl_min_mem (l : List ℕ) (a : ℕ) :
    l.foldl (fun m x => if x < m then x else m) a = a ∨
      l.foldl (fun m x => if x < m then x else m) a ∈ l := by
  induction l generalizing a with
  | nil => simp
  | cons x t ih =>
    simp only [List.foldl_cons, List.mem_cons]
    split
    · rcases ih x with h | h
      · right; left; exact h
      · right; right; exact h
    · rcases ih a with h | h
      · left; exact h
      · right; right; exact h

theorem foldl_max_ge_init (l : List ℕ) (a : ℕ) :
    a ≤ l.foldl (fun m x => if x > m then x else m) a := by
  induction l generalizing a with
  | nil => simp
  | cons x t ih =>
    simp only [List.foldl_cons]
    split
    · exact le_trans (by omega) (ih x)
    · exact ih a

theorem foldl_max_ge_mem (l : List ℕ) (a : ℕ) :
    ∀ x ∈ l, x ≤ l.foldl (fun m x => if x > m then x else m) a := by
  induction l generalizing a with
  | nil => simp
  | cons y t ih =>
    intro x hx
    simp only [List.mem_cons] at hx
    simp only [List.foldl_cons]
    rcases hx with rfl | hx
    · split
      · exact foldl_max_ge_init t x
      · exact le_trans (by omega) (foldl_max_ge_init t a)
    · split
      · exact ih y x hx
      · exact ih a x hx

theorem foldl_max_mem (l : List ℕ) (a : ℕ) :
    l.foldl (fun m x => if x > m then x else m) a = a ∨
      l.foldl (fun m x => if x > m then x else m) a ∈ l := by
  induction l generalizing a with
  | nil => simp
  | cons x t ih =>
    simp only [List.foldl_cons, List.mem_cons]
    split
    · rcases ih x with h | h
      · right; left; exact h
      · right; right; exact h
    · rcases ih a with h | h
      · left; exact h
      · right; right; exact h

theorem analyze_min_spec (values : List ℕ) (h : values ≠ []) :
    (varintFORAnalyze values).minValue ∈ values ∧
      ∀ x ∈ values, (varintFORAnalyze values).minValue ≤ x := by
  match values with
  | v :: t =>
    simp only [varintFORAnalyze, List.headD_cons, List.tail_cons]
    constructor
    · rcases foldl_min_mem t v with h | h
      · rw [h]; simp
      · simp [h]
    · intro x hx
      simp only [List.mem_cons] at hx
      rcases hx with rfl | hx
      · exact foldl_min_le_init t x
      · exact foldl_min_le_mem t v x hx

theorem analyze_max_spec (values : List ℕ) (h : values ≠ []) :
    (varintFORAnalyze values).maxValue ∈ values ∧
      ∀ x ∈ values, x ≤ (varintFORAnalyze values).maxValue := by
  match values with
  | v :: t =>
    simp only [varintFORAnalyze, List.headD_cons, List.tail_cons]
    constructor
    · rcases foldl_max_mem t v with h | h
      · rw [h]; simp
      · simp [h]
    · intro x hx
      simp only [List.mem_cons] at hx
      rcases hx with rfl | hx
      · exact foldl_max_ge_init t x
      · exact foldl_max_ge_mem t v x hx

/-- C4: varintFORAnalyze fills the metadata with the minimum, the maximum,
range = max - min, count = N, offsetWidth = varintFORComputeWidth(range)
and encodedSize = varintFORSize(meta) =
len(tagged(min)) + 1 + len(tagged(count)) + count * offsetWidth; and
analyze({1000,1010,1020,1030}) yields min=1000, max=1030, range=30,
count=4. -/
theorem varintFORAnalyze_postcondition (values : List ℕ) (h : values ≠ []) :
    ((varintFORAnalyze values).minValue ∈ values ∧
      ∀ x ∈ values, (varintFORAnalyze values).minValue ≤ x) ∧
    ((varintFORAnalyze values).maxValue ∈ values ∧
      ∀ x ∈ values, x ≤ (varintFORAnalyze values).maxValue) ∧
    (varintFORAnalyze values).range =
      (varintFORAnalyze values).maxValue - (varintFORAnalyze values).minValue ∧
    (varintFORAnalyze values).count = values.length ∧
    (varintFORAnalyze values).offsetWidth =
      varintFORComputeWidth (varintFORAnalyze values).range ∧
    (varintFORAnalyze values).encodedSize = varintFORSize (varintFORAnalyze values) ∧
    varintFORSize (varintFORAnalyze values) =
      varintTaggedLen (varintFORAnalyze values).minValue + 1 +
        varintTaggedLen (varintFORAnalyze values).count +
        (varintFORAnalyze values).count * (varintFORAnalyze values).offsetWidth ∧
    (varintFORAnalyze [1000, 1010, 1020, 1030]).minValue = 1000 ∧
    (varintFORAnalyze [1000, 1010, 1020, 1030]).maxValue = 1030 ∧
    (varintFORAnalyze [1000, 1010, 1020, 1030]).range = 30 ∧
    (varintFORAnalyze [1000, 1010, 1020, 1030]).count = 4 := by
  refine ⟨analyze_min_spec values h, analyze_max_spec values h, ?_, ?_, ?_, ?_, ?_,
    by decide, by decide, by decide, by decide⟩
  · rfl
  · rfl
  · rfl
  · rfl
  · rfl

/-- Witness for C4 at the concrete input {1000,1010,1020,1030}. -/
theorem varintFORAnalyze_postcondition_witness :
    (varintFORAnalyze [1000, 1010, 1020, 1030]).count =
      ([1000, 1010, 1020, 1030] : List ℕ).length :=
  (varintFORAnalyze_postcondition [1000, 1010, 1020, 1030] (by decide)).2.2.2.1

/-! ### FOR round-trip machinery -/

theorem u64sub_eq {a b : ℕ} (hba : b ≤ a) (ha : a < 2 ^ 64) :
    u64sub a b = a - b := by
  unfold u64sub
  omega

theorem getD_append_lt {l l2 : List ℕ} {i : ℕ} (h : i < l.length) (d : ℕ) :
    (l ++ l2).getD i d = l.getD i d := by
  simp [List.getD_eq_getElem?_getD, List.getElem?_append, h]

theorem getD_range_map (f : ℕ → ℕ) {n i : ℕ} (hi : i < n) (d : ℕ) :
    ((List.range n).map f).getD i d = f i := by
  rw [List.getD_eq_getElem?_getD, List.getElem?_eq_getElem (by simp [hi])]
  simp

theorem varintFOROffsets_length (values : List ℕ) (minV w : ℕ) :
    (varintFOROffsets values minV w).length = values.length * w := by
  induction values with
  | nil => simp [varintFOROffsets]
  | cons v t ih =>
    simp [varintFOROffsets, putFixedWidth_length, ih]
    ring

theorem varintFOROffsets_read (values : List ℕ) (minV w : ℕ) :
    ∀ i < values.length, (∀ v ∈ values, u64sub v minV < 256 ^ w) →
      leRead w ((varintFOROffsets values minV w).drop (i * w)) =
        u64sub (values.getD i 0) minV := by
  induction values with
  | nil => intro i hi; simp at hi
  | cons v t ih =>
    intro i hi hb
    match i with
    | 0 =>
      simp only [Nat.zero_mul, List.drop_zero, varintFOROffsets, List.getD_cons_zero]
      rw [leRead_putFixedWidth w _ (hb v (by simp))]
    | i + 1 =>
      simp only [varintFOROffsets, List.getD_cons_succ]
      have hlen : (varintExternalPutFixedWidth (u64sub v minV) w).length = w :=
        putFixedWidth_length _ _
      have hd : (varintExternalPutFixedWidth (u64sub v minV) w ++
          varintFOROffsets t minV w).drop ((i + 1) * w) =
          (varintFOROffsets t minV w).drop (i * w) := by
        have h1 : (i + 1) * w =
            (varintExternalPutFixedWidth (u64sub v minV) w).length + i * w := by
          rw [hlen]; ring
        rw [h1, ← List.drop_drop, List.drop_left]
      rw [hd]
      exact ih i (by simpa using hi) (fun x hx => hb x (by simp [hx]))

/-- Parsing the header written by varintFOREncodeBody recovers the
metadata's min, count and offset width. -/
theorem readMetadata_encodeBody (meta : varintFORMetadata) (values : List ℕ)
    (hmin : meta.minValue < 2 ^ 64) (hcount : meta.count < 2 ^ 64)
    (how : meta.offsetWidth < 256) :
    varintFORReadMetadata (varintFOREncodeBody meta values) =
      { minValue := meta.minValue, maxValue := meta.minValue, range := 0,
        count := meta.count,
        encodedSize := varintTaggedLen meta.minValue + 1 +
          varintTaggedLen meta.count + meta.count * meta.offsetWidth,
        offsetWidth := meta.offsetWidth } := by
  unfold varintFOREncodeBody varintFORReadMetadata
  rw [taggedGet_taggedPut hmin]
  dsimp only
  have hd2 : (varintTaggedPut64 meta.minValue ++
      ([meta.offsetWidth % 256] ++ (varintTaggedPut64 meta.count ++
        varintFOROffsets values meta.minValue meta.offsetWidth))).drop
        (varintTaggedLen meta.minValue + 1) =
      varintTaggedPut64 meta.count ++
        varintFOROffsets values meta.minValue meta.offsetWidth := by
    rw [← List.drop_drop, List.drop_left' (taggedPut_length _)]
    simp
  rw [hd2, taggedGet_taggedPut hcount, List.drop_left' (taggedPut_length _)]
  have hb : meta.offsetWidth % 256 = meta.offsetWidth := Nat.mod_eq_of_lt how
  simp [hb]

/-- The bytes past the recomputed header of an encodeBody block are exactly
the offsets section. -/
theorem encodeBody_drop_header (meta : varintFORMetadata) (values : List ℕ)
    (k : ℕ) :
    (varintFOREncodeBody meta values).drop
      (varintTaggedLen meta.minValue + 1 + varintTaggedLen meta.count + k) =
      (varintFOROffsets values meta.minValue meta.offsetWidth).drop k := by
  unfold varintFOREncodeBody
  have h1 : varintTaggedLen meta.minValue + 1 + varintTaggedLen meta.count + k =
      varintTaggedLen meta.minValue + (1 + (varintTaggedLen meta.count + k)) := by
    ring
  rw [h1, ← List.drop_drop, List.drop_left' (taggedPut_length _)]
  have h2 : (1 : ℕ) + (varintTaggedLen meta.count + k) =
      1 + (varintTaggedLen meta.count + k) := rfl
  rw [← List.drop_drop]
  simp only [List.singleton_append, List.drop_succ_cons, List.drop_zero]
  rw [← List.drop_drop, List.drop_left' (taggedPut_length _)]

theorem getD_mem {l : List ℕ} {i : ℕ} (hi : i < l.length) (d : ℕ) :
    l.getD i d ∈ l := by
  rw [List.getD_eq_getElem?_getD, List.getElem?_eq_getElem hi]
  exact List.getElem_mem hi

theorem analyze_count_eq (values : List ℕ) :
    (varintFORAnalyze values).count = values.length := rfl

theorem analyze_range_eq (values : List ℕ) :
    (varintFORAnalyze values).range =
      (varintFORAnalyze values).maxValue - (varintFORAnalyze values).minValue := rfl

theorem analyze_offsetWidth_eq (values : List ℕ) :
    (varintFORAnalyze values).offsetWidth =
      varintExternalUnsignedEncoding (varintFORAnalyze values).range := rfl

theorem analyze_offset_bound (values : List ℕ) (hne : values ≠ [])
    (hb : ∀ v ∈ values, v < 2 ^ 64) :
    ∀ v ∈ values, u64sub v (varintFORAnalyze values).minValue <
      256 ^ (varintFORAnalyze values).offsetWidth := by
  intro v hv
  have hminle := (analyze_min_spec values hne).2 v hv
  have hmaxle := (analyze_max_spec values hne).2 v hv
  have hmax64 := hb _ (analyze_max_spec values hne).1
  rw [u64sub_eq hminle (hb v hv), analyze_offsetWidth_eq]
  have h1 : v - (varintFORAnalyze values).minValue ≤ (varintFORAnalyze values).range := by
    rw [analyze_range_eq]
    omega
  have h2 : (varintFORAnalyze values).range < 2 ^ 64 := by
    rw [analyze_range_eq]
    omega
  exact lt_of_le_of_lt h1 (lt_pow_unsignedEncoding h2)

/-- Full decode of a freshly encoded block: the result pair. -/
theorem decode_encode_eq (values out : List ℕ) (maxCount : ℕ)
    (hne : values ≠ []) (hb : ∀ v ∈ values, v < 2 ^ 64)
    (hlen : values.length < 2 ^ 64) (hmax : values.length ≤ maxCount) :
    varintFORDecode (varintFOREncode values none).1 out maxCount =
      (values.length,
        (List.range values.length).map (fun i => values.getD i 0) ++
          out.drop values.length) := by
  have hmin64 : (varintFORAnalyze values).minValue < 2 ^ 64 :=
    hb _ (analyze_min_spec values hne).1
  have how8 : (varintFORAnalyze values).offsetWidth ≤ 8 := by
    rw [analyze_offsetWidth_eq]
    exact unsignedEncoding_le_eight _
  have hrm := readMetadata_encodeBody (varintFORAnalyze values) values hmin64
    (by rw [analyze_count_eq]; exact hlen) (by omega)
  have hoffb := analyze_offset_bound values hne hb
  have henc : (varintFOREncode values none).1 =
      varintFOREncodeBody (varintFORAnalyze values) values := rfl
  rw [henc]
  unfold varintFORDecode
  rw [hrm]
  dsimp only
  rw [analyze_count_eq]
  rw [if_neg (by omega)]
  refine Prod.ext rfl ?_
  dsimp only
  congr 1
  apply List.map_congr_left
  intro i hi
  rw [List.mem_range] at hi
  have hdrop : (varintFOREncodeBody (varintFORAnalyze values) values).drop
      (varintTaggedLen (varintFORAnalyze values).minValue + 1 +
        varintTaggedLen values.length + i * (varintFORAnalyze values).offsetWidth) =
      (varintFOROffsets values (varintFORAnalyze values).minValue
        (varintFORAnalyze values).offsetWidth).drop
        (i * (varintFORAnalyze values).offsetWidth) :=
    encodeBody_drop_header (varintFORAnalyze values) values
      (i * (varintFORAnalyze values).offsetWidth)
  rw [hdrop]
  rw [varintFOROffsets_read values _ _ i hi hoffb]
  have hvm := getD_mem hi 0
  rw [u64sub_eq ((analyze_min_spec values hne).2 _ hvm) (hb _ hvm)]
  have h1 := (analyze_min_spec values hne).2 _ hvm
  have h2 := hb _ hvm
  omega

/-- C2: FOR round-trip: decoding the buffer produced by varintFOREncode on
a non-empty array of N unsigned 64-bit values, with maxCount at least N,
returns N and writes out[i] equal to the original values[i] for i < N. -/
theorem varintFOR_roundtrip (values out : List ℕ) (maxCount : ℕ)
    (hne : values ≠ []) (hb : ∀ v ∈ values, v < 2 ^ 64)
    (hlen : values.length < 2 ^ 64) (hmax : values.length ≤ maxCount) :
    (varintFORDecode (varintFOREncode values none).1 out maxCount).1 =
      values.length ∧
    ∀ i < values.length,
      (varintFORDecode (varintFOREncode values none).1 out maxCount).2.getD i 0 =
        values.getD i 0 := by
  rw [decode_encode_eq values out maxCount hne hb hlen hmax]
  refine ⟨rfl, ?_⟩
  intro i hi
  dsimp only
  rw [getD_append_lt (by simp [hi]) 0, getD_range_map _ hi 0]

/-- Witness for C2 at values = {7, 3, 12}, out = {0,0,0,0}, maxCount = 4. -/
theorem varintFOR_roundtrip_witness :
    (varintFORDecode (varintFOREncode [7, 3, 12] none).1 [0, 0, 0, 0] 4).1 =
      ([7, 3, 12] : List ℕ).length ∧
    (varintFORDecode (varintFOREncode [7, 3, 12] none).1 [0, 0, 0, 0] 4).2.getD 1 0 =
      ([7, 3, 12] : List ℕ).getD 1 0 := by
  have h := varintFOR_roundtrip [7, 3, 12] [0, 0, 0, 0] 4 (by decide)
    (by decide) (by decide) (by decide)
  exact ⟨h.1, h.2 1 (by decide)⟩

theorem getAt_encode_eq (values : List ℕ) (i : ℕ)
    (hne : values ≠ []) (hb : ∀ v ∈ values, v < 2 ^ 64)
    (hlen : values.length < 2 ^ 64) (hi : i < values.length) :
    varintFORGetAt (varintFOREncode values none).1 i = values.getD i 0 := by
  have hmin64 : (varintFORAnalyze values).minValue < 2 ^ 64 :=
    hb _ (analyze_min_spec values hne).1
  have how8 : (varintFORAnalyze values).offsetWidth ≤ 8 := by
    rw [analyze_offsetWidth_eq]
    exact unsignedEncoding_le_eight _
  have hrm := readMetadata_encodeBody (varintFORAnalyze values) values hmin64
    (by rw [analyze_count_eq]; exact hlen) (by omega)
  have henc : (varintFOREncode values none).1 =
      varintFOREncodeBody (varintFORAnalyze values) values := rfl
  rw [henc]
  unfold varintFORGetAt
  rw [hrm]
  dsimp only
  have hdrop : (varintFOREncodeBody (varintFORAnalyze values) values).drop
      (varintTaggedLen (varintFORAnalyze values).minValue + 1 +
        varintTaggedLen (varintFORAnalyze values).count +
        i * (varintFORAnalyze values).offsetWidth) =
      (varintFOROffsets values (varintFORAnalyze values).minValue
        (varintFORAnalyze values).offsetWidth).drop
        (i * (varintFORAnalyze values).offsetWidth) :=
    encodeBody_drop_header (varintFORAnalyze values) values
      (i * (varintFORAnalyze values).offsetWidth)
  rw [hdrop]
  rw [varintFOROffsets_read values _ _ i hi (analyze_offset_bound values hne hb)]
  have hvm := getD_mem hi 0
  rw [u64sub_eq ((analyze_min_spec values hne).2 _ hvm) (hb _ hvm)]
  have h1 := (analyze_min_spec values hne).2 _ hvm
  have h2 := hb _ hvm
  omega

/-- C3: FOR random access agrees with full decode: on an encoded block,
varintFORGetAt(src, i) equals the i-th output of varintFORDecode(src), and
equals min plus the little-endian read of offset_width bytes at
src + len(tagged(min)) + 1 + len(tagged(count)) + i * offset_width, where
min, count and offset_width are the block's header fields. -/
theorem varintFORGetAt_spec (values out : List ℕ) (maxCount i : ℕ)
    (hne : values ≠ []) (hb : ∀ v ∈ values, v < 2 ^ 64)
    (hlen : values.length < 2 ^ 64) (hmax : values.length ≤ maxCount)
    (hi : i < values.length) :
    varintFORGetAt (varintFOREncode values none).1 i =
      (varintFORDecode (varintFOREncode values none).1 out maxCount).2.getD i 0 ∧
    varintFORGetAt (varintFOREncode values none).1 i =
      (varintFORReadMetadata (varintFOREncode values none).1).minValue +
        leRead (varintFORReadMetadata (varintFOREncode values none).1).offsetWidth
          ((varintFOREncode values none).1.drop
            (varintTaggedLen
                (varintFORReadMetadata (varintFOREncode values none).1).minValue +
              1 +
              varintTaggedLen
                (varintFORReadMetadata (varintFOREncode values none).1).count +
              i *
                (varintFORReadMetadata
                  (varintFOREncode values none).1).offsetWidth)) := by
  have hmin64 : (varintFORAnalyze values).minValue < 2 ^ 64 :=
    hb _ (analyze_min_spec values hne).1
  have how8 : (varintFORAnalyze values).offsetWidth ≤ 8 := by
    rw [analyze_offsetWidth_eq]
    exact unsignedEncoding_le_eight _
  have hrm := readMetadata_encodeBody (varintFORAnalyze values) values hmin64
    (by rw [analyze_count_eq]; exact hlen) (by omega)
  have henc : (varintFOREncode values none).1 =
      varintFOREncodeBody (varintFORAnalyze values) values := rfl
  constructor
  · rw [getAt_encode_eq values i hne hb hlen hi,
      decode_encode_eq values out maxCount hne hb hlen hmax]
    dsimp only
    rw [getD_append_lt (by simp [hi]) 0, getD_range_map _ hi 0]
  · rw [getAt_encode_eq values i hne hb hlen hi, henc, hrm]
    dsimp only
    have hdrop : (varintFOREncodeBody (varintFORAnalyze values) values).drop
        (varintTaggedLen (varintFORAnalyze values).minValue + 1 +
          varintTaggedLen (varintFORAnalyze values).count +
          i * (varintFORAnalyze values).offsetWidth) =
        (varintFOROffsets values (varintFORAnalyze values).minValue
          (varintFORAnalyze values).offsetWidth).drop
          (i * (varintFORAnalyze values).offsetWidth) :=
      encodeBody_drop_header (varintFORAnalyze values) values
        (i * (varintFORAnalyze values).offsetWidth)
    rw [hdrop]
    rw [varintFOROffsets_read values _ _ i hi (analyze_offset_bound values hne hb)]
    have hvm := getD_mem hi 0
    rw [u64sub_eq ((analyze_min_spec values hne).2 _ hvm) (hb _ hvm)]
    have h1 := (analyze_min_spec values hne).2 _ hvm
    have h2 := hb _ hvm
    omega

/-- Witness for C3 at values = {100, 200, 300}, i = 2. -/
theorem varintFORGetAt_spec_witness :
    varintFORGetAt (varintFOREncode [100, 200, 300] none).1 2 =
      (varintFORDecode (varintFOREncode [100, 200, 300] none).1 [0, 0, 0] 3).2.getD 2 0 :=
  (varintFORGetAt_spec [100, 200, 300] [0, 0, 0] 3 2 (by decide) (by decide)
    (by decide) (by decide) (by decide)).1

/-- The amended C5: varintFORDecode refuses (returns count 0 with the
output array untouched) exactly when the header count exceeds maxCount;
otherwise it returns the header count. It performs no source-buffer bounds
check (its API receives no source length). -/
theorem varintFORDecode_guard (src out : List ℕ) (maxCount : ℕ) :
    ((varintFORReadMetadata src).count > maxCount →
      varintFORDecode src out maxCount = (0, out)) ∧
    ((varintFORReadMetadata src).count ≤ maxCount →
      (varintFORDecode src out maxCount).1 = (varintFORReadMetadata src).count) := by
  constructor
  · intro h
    unfold varintFORDecode
    rw [if_pos h]
  · intro h
    unfold varintFORDecode
    rw [if_neg (by omega)]

/-- Witness for the amended C5: a header claiming 5 values is refused with
maxCount = 2 and the output array {9, 9} is returned untouched. -/
theorem varintFORDecode_guard_witness :
    varintFORDecode [0, 1, 5] [9, 9] 2 = (0, [9, 9]) :=
  (varintFORDecode_guard [0, 1, 5] [9, 9] 2).1 (by decide)

/-- Counterexample to C5 as stated: the 3-byte buffer [0, 1, 5] has a
header (min = 0, offset_width = 1, count = 5) whose claimed encoded size
(8 bytes) exceeds the buffer, i.e. decoding would read past the source
buffer, yet varintFORDecode does not return zero: it returns the header
count 5. -/
theorem varintFORDecode_reads_past_buffer :
    (varintFORReadMetadata [0, 1, 5]).encodedSize = 8 ∧
    ([0, 1, 5] : List ℕ).length = 3 ∧
    (varintFORDecode [0, 1, 5] [0, 0, 0, 0, 0] 10).1 = 5 := by
  refine ⟨by decide, by decide, ?_⟩
  decide

/-- C10: varintFOREncode uses a caller-supplied metadata record verbatim
iff it is non-NULL with meta->count equal to the value count; otherwise it
re-analyzes the input and, when meta is non-NULL, overwrites *meta with the
fresh metadata before encoding. The second component of the model's result
is the caller's meta record after the call. -/
theorem varintFOREncode_meta_contract (values : List ℕ) (m : varintFORMetadata) :
    (m.count = values.length →
      varintFOREncode values (some m) = (varintFOREncodeBody m values, some m)) ∧
    (m.count ≠ values.length →
      varintFOREncode values (some m) =
        (varintFOREncodeBody (varintFORAnalyze values) values,
          some (varintFORAnalyze values))) ∧
    varintFOREncode values none =
      (varintFOREncodeBody (varintFORAnalyze values) values, none) := by
  refine ⟨?_, ?_, rfl⟩ <;> intro h <;> simp [varintFOREncode, h]

/-- Witness for C10: a caller-supplied metadata record with matching count
(here deliberately inconsistent min/width fields) is used verbatim. -/
theorem varintFOREncode_meta_contract_witness :
    varintFOREncode [5, 6] (some ⟨3, 0, 0, 2, 0, 1⟩) =
      (varintFOREncodeBody ⟨3, 0, 0, 2, 0, 1⟩ [5, 6], some ⟨3, 0, 0, 2, 0, 1⟩) :=
  (varintFOREncode_meta_contract [5, 6] ⟨3, 0, 0, 2, 0, 1⟩).1 (by decide)

/-! ## Delta codec (header src/src/varintDelta.h; coder modelled from the
spec, sections 3.4 and 4.4, as varintDelta.c is not under src/) -/

theorem toU64_lt (n : ℤ) : toU64 n < 2 ^ 64 := by
  unfold toU64
  have h := Int.emod_lt_of_pos n (by norm_num : (0 : ℤ) < 2 ^ 64)
  have h2 := Int.emod_nonneg n (by norm_num : (2 ^ 64 : ℤ) ≠ 0)
  omega

theorem toI64_toU64 {n : ℤ} (h0 : -(2 ^ 63) ≤ n) (h1 : n < 2 ^ 63) :
    toI64 (toU64 n) = n := by
  rcases le_or_lt 0 n with h | h
  · rw [toU64_nonneg_eq h (by omega), toI64_lt_eq (by omega)]
    omega
  · rw [toU64_neg_eq h0 h, toI64_ge_eq (by omega)]
    omega

theorem wrap64_add_right (a b : ℤ) : wrap64 (a + wrap64 b) = wrap64 (a + b) := by
  rw [Int.add_comm a (wrap64 b), wrap64_add_left, Int.add_comm]

/-- Modelled from the spec: varintDelta.c is not under src/. Spec 4.4 and
the header comment on varintDeltaPut (varintDelta.h lines 41-44): emit a
width byte for zz(delta), then zz(delta) at that width. -/
def varintDeltaPut (delta : ℤ) : List ℕ :=
  let z := varintDeltaZigZag delta
  let w := varintExternalUnsignedEncoding z
  w :: varintExternalPutFixedWidth z w

/-- Modelled from the spec: varintDelta.c is not under src/. Spec 4.4 and
the header comment on varintDeltaGet (varintDelta.h lines 46-49): read the
width byte, read the ZigZag value at that width, decode; returns the delta
and the bytes consumed (1 + width). -/
def varintDeltaGet (l : List ℕ) : ℤ × ℕ :=
  let w := l.headD 0
  (varintDeltaZigZagDecode (leRead w l.tail), 1 + w)

/-- Modelled from the spec: varintDelta.c is not under src/. The encoder
loop for i = 1..N-1: d = values[i] - values[i-1] (wrapping int64), emit
varintDeltaPut(d). -/
def varintDeltaEncodeDeltas (prev : ℤ) : List ℤ → List ℕ
  | [] => []
  | x :: xs => varintDeltaPut (wrap64 (x - prev)) ++ varintDeltaEncodeDeltas x xs

/-- Modelled from the spec: varintDelta.c is not under src/. Spec 4.4
encode: emit a width byte for values[0] and the base value at that width,
then the ZigZag deltas; layout
[base_width][base_value][delta1_width][delta1]... (varintDelta.h lines
51-61). -/
def varintDeltaEncode (values : List ℤ) : List ℕ :=
  match values with
  | [] => []
  | v :: rest =>
    varintExternalUnsignedEncoding (toU64 v) ::
      (varintExternalPutFixedWidth (toU64 v)
          (varintExternalUnsignedEncoding (toU64 v)) ++
        varintDeltaEncodeDeltas v rest)

/-- Modelled from the spec: varintDelta.c is not under src/. The decoder
loop: read each delta with varintDeltaGet and set
out[i] = out[i-1] + delta (wrapping int64). Returns the decoded values and
the bytes consumed. -/
def varintDeltaDecodeDeltas (l : List ℕ) (prev : ℤ) : ℕ → List ℤ × ℕ
  | 0 => ([], 0)
  | k + 1 =>
    let r0 := varintDeltaGet l
    let v := wrap64 (prev + r0.1)
    let r := varintDeltaDecodeDeltas (l.drop r0.2) v k
    (v :: r.1, r0.2 + r.2)

/-- Modelled from the spec: varintDelta.c is not under src/. Spec 4.4
decode: read the base width and base value, out[0] = base, then the
deltas; returns the decoded values and the total bytes read. -/
def varintDeltaDecode (input : List ℕ) (count : ℕ) : List ℤ × ℕ :=
  match count with
  | 0 => ([], 0)
  | k + 1 =>
    let w := input.headD 0
    let base := toI64 (leRead w input.tail)
    let r := varintDeltaDecodeDeltas (input.drop (1 + w)) base k
    (base :: r.1, 1 + w + r.2)

theorem deltaGet_deltaPut {d : ℤ} (h0 : -(2 ^ 63) ≤ d) (h1 : d < 2 ^ 63)
    (rest : List ℕ) :
    varintDeltaGet (varintDeltaPut d ++ rest) = (d, (varintDeltaPut d).length) := by
  unfold varintDeltaPut varintDeltaGet
  dsimp only
  simp only [List.cons_append, List.headD_cons, List.tail_cons]
  rw [leRead_putFixedWidth _ rest (lt_pow_unsignedEncoding (zigzag_lt d h0 h1))]
  rw [zigzag_roundtrip d h0 h1]
  simp [putFixedWidth_length, Nat.add_comm]

theorem decodeDeltas_encodeDeltas (xs : List ℤ) (prev : ℤ) (rest : List ℕ)
    (hxs : ∀ x ∈ xs, -(2 ^ 63) ≤ x ∧ x < 2 ^ 63) :
    varintDeltaDecodeDeltas (varintDeltaEncodeDeltas prev xs ++ rest) prev
        xs.length =
      (xs, (varintDeltaEncodeDeltas prev xs).length) := by
  induction xs generalizing prev rest with
  | nil => simp [varintDeltaEncodeDeltas, varintDeltaDecodeDeltas]
  | cons x xs ih =>
    have hx := hxs x (by simp)
    have hd := wrap64_range (x - prev)
    simp only [varintDeltaEncodeDeltas, List.length_cons, List.append_assoc]
    unfold varintDeltaDecodeDeltas
    rw [deltaGet_deltaPut hd.1 hd.2]
    dsimp only
    rw [List.drop_left]
    have hv : wrap64 (prev + wrap64 (x - prev)) = x := by
      rw [wrap64_add_right]
      have : prev + (x - prev) = x := by ring
      rw [this, wrap64_eq_of_range hx.1 hx.2]
    rw [hv, ih x rest (fun y hy => hxs y (by simp [hy]))]
    simp [Nat.add_comm]

/-- C6: Delta round-trip: decoding the delta-encoded buffer of a non-empty
array of N signed 64-bit values reproduces the array exactly (out[0] =
base, out[i] = out[i-1] + un(delta_i)) and returns the byte count the
encoder wrote. -/
theorem varintDelta_roundtrip (values : List ℤ)
    (hne : values ≠ []) (hb : ∀ v ∈ values, -(2 ^ 63) ≤ v ∧ v < 2 ^ 63) :
    varintDeltaDecode (varintDeltaEncode values) values.length =
      (values, (varintDeltaEncode values).length) := by
  match values with
  | v :: rest =>
    have hv := hb v (by simp)
    simp only [varintDeltaEncode, List.length_cons]
    unfold varintDeltaDecode
    simp only [List.headD_cons, List.tail_cons]
    rw [leRead_putFixedWidth _ _ (lt_pow_unsignedEncoding (toU64_lt v))]
    rw [toI64_toU64 hv.1 hv.2]
    have hdrop : (varintExternalPutFixedWidth (toU64 v)
          (varintExternalUnsignedEncoding (toU64 v)) ++
        varintDeltaEncodeDeltas v rest).drop
          (varintExternalUnsignedEncoding (toU64 v)) =
        varintDeltaEncodeDeltas v rest :=
      List.drop_left' (putFixedWidth_length _ _)
    rw [Nat.add_comm 1 (varintExternalUnsignedEncoding (toU64 v))]
    simp only [List.drop_succ_cons]
    rw [hdrop]
    have henc : varintDeltaEncodeDeltas v rest =
        varintDeltaEncodeDeltas v rest ++ [] := by simp
    rw [henc, decodeDeltas_encodeDeltas rest v []
      (fun y hy => hb y (by simp [hy]))]
    simp [putFixedWidth_length]
    omega

/-- Witness for C6 at the mixed sequence {1000, 1005, 995, 1010, 990}. -/
theorem varintDelta_roundtrip_witness :
    varintDeltaDecode (varintDeltaEncode [1000, 1005, 995, 1010, 990])
        ([1000, 1005, 995, 1010, 990] : List ℤ).length =
      ([1000, 1005, 995, 1010, 990],
        (varintDeltaEncode [1000, 1005, 995, 1010, 990]).length) :=
  varintDelta_roundtrip [1000, 1005, 995, 1010, 990] (by decide) (by decide)

/-- varintDeltaMaxEncodedSize, src/src/varintDelta.h lines 74-79. -/
def varintDeltaMaxEncodedSize (count : ℕ) : ℕ :=
  if count = 0 then 0 else 1 + 8 + (count - 1) * 9

theorem deltaPut_length_le (d : ℤ) : (varintDeltaPut d).length ≤ 9 := by
  unfold varintDeltaPut
  dsimp only
  simp only [List.length_cons, putFixedWidth_length]
  have := unsignedEncoding_le_eight (varintDeltaZigZag d)
  omega

theorem encodeDeltas_length_le (xs : List ℤ) (prev : ℤ) :
    (varintDeltaEncodeDeltas prev xs).length ≤ 9 * xs.length := by
  induction xs generalizing prev with
  | nil => simp [varintDeltaEncodeDeltas]
  | cons x xs ih =>
    simp only [varintDeltaEncodeDeltas, List.length_append, List.length_cons]
    have h1 := deltaPut_length_le (wrap64 (x - prev))
    have h2 := ih x
    omega

/-- C7: varintDeltaMaxEncodedSize(N) = 1 + 8 + (N-1)*9 for N >= 1,
varintDeltaMaxEncodedSize(0) = 0, and the encoder writes at most
varintDeltaMaxEncodedSize(N) bytes for any N values. -/
theorem varintDeltaMaxEncodedSize_spec :
    (∀ N : ℕ, 1 ≤ N → varintDeltaMaxEncodedSize N = 1 + 8 + (N - 1) * 9) ∧
    varintDeltaMaxEncodedSize 0 = 0 ∧
    ∀ values : List ℤ,
      (varintDeltaEncode values).length ≤
        varintDeltaMaxEncodedSize values.length := by
  refine ⟨fun N hN => by unfold varintDeltaMaxEncodedSize; rw [if_neg (by omega)],
    rfl, ?_⟩
  intro values
  match values with
  | [] => simp [varintDeltaEncode, varintDeltaMaxEncodedSize]
  | v :: rest =>
    simp only [varintDeltaEncode, List.length_cons, List.length_append,
      putFixedWidth_length]
    unfold varintDeltaMaxEncodedSize
    rw [if_neg (by simp)]
    have h1 := unsignedEncoding_le_eight (toU64 v)
    have h2 := encodeDeltas_length_le rest v
    simp only [Nat.add_sub_cancel]
    omega

/-- Witness for C7 at N = 5 and values = {4, -4}. -/
theorem varintDeltaMaxEncodedSize_spec_witness :
    varintDeltaMaxEncodedSize 5 = 1 + 8 + (5 - 1) * 9 ∧
    (varintDeltaEncode [4, -4]).length ≤
      varintDeltaMaxEncodedSize ([4, -4] : List ℤ).length :=
  ⟨varintDeltaMaxEncodedSize_spec.1 5 (by decide),
    varintDeltaMaxEncodedSize_spec.2.2 [4, -4]⟩

/-! ## Trie server framing and rate limiting
(src/examples/advanced/trie_server.c) -/

/-- MAX_MESSAGE_SIZE, trie_server.c line 67: 64 KiB. -/
def MAX_MESSAGE_SIZE : ℕ := 64 * 1024

/-- RATE_LIMIT_WINDOW, trie_server.c line 71 (seconds). -/
def RATE_LIMIT_WINDOW : ℤ := 1

/-- RATE_LIMIT_MAX_COMMANDS, trie_server.c line 72. -/
def RATE_LIMIT_MAX_COMMANDS : ℕ := 1000

/-- ConnectionState, trie_server.c lines 155-160. -/
inductive ConnectionState where
  | CONN_READING_LENGTH
  | CONN_READING_MESSAGE
  | CONN_PROCESSING
  | CONN_WRITING_RESPONSE
  | CONN_CLOSED
deriving DecidableEq, Repr

/-- StatusCode, trie_server.c lines 143-148. -/
inductive StatusCode where
  | STATUS_OK
  | STATUS_ERROR
  | STATUS_AUTH_REQUIRED
  | STATUS_RATE_LIMITED
  | STATUS_INVALID_CMD
deriving DecidableEq, Repr

/-- The fields of ClientConnection (trie_server.c lines 162-182) that the
framing and rate-limiting logic touches; buffers and I/O offsets are left
out of the model. -/
structure ClientConnection where
  fd : ℤ
  state : ConnectionState
  authenticated : Bool
  rateLimitWindowStart : ℤ
  commandsInWindow : ℕ
  messageLength : ℕ
deriving DecidableEq, Repr

/-- resetClient, trie_server.c lines 265-276: close the socket, zero the
connection record, mark it closed. -/
def resetClient (_ : ClientConnection) : ClientConnection :=
  { fd := -1, state := ConnectionState.CONN_CLOSED, authenticated := false,
    rateLimitWindowStart := 0, commandsInWindow := 0, messageLength := 0 }

/-- Outcome of the length-parsing step of handleClient. -/
inductive FrameStep where
  | rejected (c : ClientConnection)
  | readBody (c : ClientConnection)
deriving DecidableEq, Repr

/-- The CONN_READING_LENGTH step of handleClient once the tagged-varint
length field has been decoded, trie_server.c lines 1889-1904: store the
length; if it is 0 or exceeds MAX_MESSAGE_SIZE, reset the connection
(rejecting the frame before any command is processed); otherwise move to
CONN_READING_MESSAGE to read the body. -/
def handleParsedLength (c : ClientConnection) (msgLen : ℕ) : FrameStep :=
  let c := { c with messageLength := msgLen }
  if c.messageLength = 0 ∨ c.messageLength > MAX_MESSAGE_SIZE then
    FrameStep.rejected (resetClient c)
  else
    FrameStep.readBody { c with state := ConnectionState.CONN_READING_MESSAGE }

/-- C8: Framing rejection: whenever the decoded tagged-varint length field
of a frame is 0 or greater than MAX_MESSAGE_SIZE (64 KiB), the frame is
rejected: the connection is reset (closed, fd = -1) and the handler never
advances to reading or processing the frame's body, so no command from
that frame is processed. -/
theorem frame_length_rejection (c : ClientConnection) (msgLen : ℕ)
    (h : msgLen = 0 ∨ msgLen > MAX_MESSAGE_SIZE) :
    handleParsedLength c msgLen =
      FrameStep.rejected (resetClient { c with messageLength := msgLen }) ∧
    (resetClient { c with messageLength := msgLen }).state =
      ConnectionState.CONN_CLOSED ∧
    (resetClient { c with messageLength := msgLen }).fd = -1 ∧
    ∀ c2, handleParsedLength c msgLen ≠ FrameStep.readBody c2 := by
  refine ⟨?_, rfl, rfl, ?_⟩
  · unfold handleParsedLength
    rw [if_pos (by simpa using h)]
  · intro c2
    unfold handleParsedLength
    rw [if_pos (by simpa using h)]
    simp

/-- Witness for C8 at msgLen = 65537 (one above the 64 KiB limit). -/
theorem frame_length_rejection_witness :
    handleParsedLength
        ⟨7, ConnectionState.CONN_READING_LENGTH, false, 0, 0, 0⟩ 65537 =
      FrameStep.rejected
        (resetClient
          ⟨7, ConnectionState.CONN_READING_LENGTH, false, 0, 0, 65537⟩) :=
  (frame_length_rejection
    ⟨7, ConnectionState.CONN_READING_LENGTH, false, 0, 0, 0⟩ 65537
    (by right; decide)).1

/-- checkRateLimit, trie_server.c lines 248-263: if at least
RATE_LIMIT_WINDOW seconds have passed since the window started, start a new
window; then refuse when the window already holds RATE_LIMIT_MAX_COMMANDS
commands, otherwise count the command. -/
def checkRateLimit (now : ℤ) (c : ClientConnection) : Bool × ClientConnection :=
  let c :=
    if now - c.rateLimitWindowStart ≥ RATE_LIMIT_WINDOW then
      { c with rateLimitWindowStart := now, commandsInWindow := 0 }
    else c
  if c.commandsInWindow ≥ RATE_LIMIT_MAX_COMMANDS then (false, c)
  else (true, { c with commandsInWindow := c.commandsInWindow + 1 })

/-- The pre-dispatch gate of processCommand, trie_server.c lines 1470-1492:
empty body yields ERROR, unauthenticated non-AUTH commands yield
AUTH_REQUIRED, rate-limited commands yield RATE_LIMITED; only when all
gates pass (second component true) does the command reach the dispatch
switch. -/
def processCommandGate (requireAuth : Bool) (now : ℤ) (c : ClientConnection)
    (bodyLen : ℕ) (cmdIsAuth : Bool) :
    Option StatusCode × Bool × ClientConnection :=
  if bodyLen = 0 then (some StatusCode.STATUS_ERROR, false, c)
  else if requireAuth ∧ ¬c.authenticated ∧ ¬cmdIsAuth then
    (some StatusCode.STATUS_AUTH_REQUIRED, false, c)
  else
    let r := checkRateLimit now c
    if r.1 = false then (some StatusCode.STATUS_RATE_LIMITED, false, r.2)
    else (none, true, r.2)

/-- Run the processCommand gate over a list of command arrival times
(seconds, as time(NULL) returns them) on one connection with
authentication disabled and non-empty bodies, collecting for each command
the pre-dispatch status and whether it was processed. -/
def runCommands (c : ClientConnection) : List ℤ → List (Option StatusCode × Bool)
  | [] => []
  | t :: ts =>
    let r := processCommandGate false t c 1 false
    (r.1, r.2.1) :: runCommands r.2.2 ts

theorem runCommands_cons_reset (c : ClientConnection) (t0 : ℤ) (ts : List ℤ)
    (h : RATE_LIMIT_WINDOW ≤ t0 - c.rateLimitWindowStart) :
    runCommands c (t0 :: ts) =
      (none, true) :: runCommands
        { c with rateLimitWindowStart := t0, commandsInWindow := 1 } ts := by
  simp [runCommands, processCommandGate, checkRateLimit, ge_iff_le, h,
    RATE_LIMIT_MAX_COMMANDS]

theorem runCommands_cons_same_accept (c : ClientConnection) (t0 : ℤ)
    (ts : List ℤ) (h : ¬ RATE_LIMIT_WINDOW ≤ t0 - c.rateLimitWindowStart)
    (h2 : c.commandsInWindow < RATE_LIMIT_MAX_COMMANDS) :
    runCommands c (t0 :: ts) =
      (none, true) ::
        runCommands { c with commandsInWindow := c.commandsInWindow + 1 } ts := by
  simp [runCommands, processCommandGate, checkRateLimit, ge_iff_le, h,
    Nat.not_le.mpr h2]

theorem runCommands_cons_same_reject (c : ClientConnection) (t0 : ℤ)
    (ts : List ℤ) (h : ¬ RATE_LIMIT_WINDOW ≤ t0 - c.rateLimitWindowStart)
    (h2 : RATE_LIMIT_MAX_COMMANDS ≤ c.commandsInWindow) :
    runCommands c (t0 :: ts) =
      (some StatusCode.STATUS_RATE_LIMITED, false) :: runCommands c ts := by
  simp [runCommands, processCommandGate, checkRateLimit, ge_iff_le, h, h2]

theorem getD_mem_int {l : List ℤ} {i : ℕ} (hi : i < l.length) (d : ℤ) :
    l.getD i d ∈ l := by
  rw [List.getD_eq_getElem?_getD, List.getElem?_eq_getElem hi]
  exact List.getElem_mem hi

/-- Characterisation of the rate-limit gate on a sorted arrival trace: a
command is processed iff fewer than RATE_LIMIT_MAX_COMMANDS commands (plus
k virtual earlier arrivals in the current window) arrived earlier with the
same timestamp; otherwise the gate answers RATE_LIMITED. -/
theorem runCommands_char (ts : List ℤ) :
    ∀ (c : ClientConnection) (k : ℕ),
      List.Pairwise (· ≤ ·) ts →
      (∀ t ∈ ts, c.rateLimitWindowStart ≤ t) →
      c.commandsInWindow = min k RATE_LIMIT_MAX_COMMANDS →
      ∀ i, i < ts.length →
        (runCommands c ts).getD i (none, false) =
          (if (if ts.getD i 0 = c.rateLimitWindowStart then k else 0) +
              (ts.take i).count (ts.getD i 0) < RATE_LIMIT_MAX_COMMANDS
           then (none, true)
           else (some StatusCode.STATUS_RATE_LIMITED, false)) := by
  induction ts with
  | nil => intro c k _ _ _ i hi; simp at hi
  | cons t0 ts ih =>
    intro c k hsort hge hk i hi
    have hw : c.rateLimitWindowStart ≤ t0 := hge t0 (by simp)
    have hsort' := (List.pairwise_cons.mp hsort).2
    have hhead := (List.pairwise_cons.mp hsort).1
    have hk' : c.commandsInWindow = min k 1000 := by
      simpa [RATE_LIMIT_MAX_COMMANDS] using hk
    by_cases hreset : RATE_LIMIT_WINDOW ≤ t0 - c.rateLimitWindowStart
    · -- a new window starts at t0
      have ht0w : c.rateLimitWindowStart < t0 := by
        simp only [RATE_LIMIT_WINDOW] at hreset
        omega
      rw [runCommands_cons_reset c t0 ts hreset]
      match i with
      | 0 =>
        simp only [List.getD_cons_zero, List.take_zero, List.count_nil,
          RATE_LIMIT_MAX_COMMANDS]
        split_ifs <;> first | rfl | (exfalso; omega)
      | i + 1 =>
        rw [List.getD_cons_succ]
        have hi' : i < ts.length := by simpa using hi
        rw [ih { c with rateLimitWindowStart := t0, commandsInWindow := 1 } 1
          hsort' (fun t ht => hhead t ht)
          (by simp [RATE_LIMIT_MAX_COMMANDS]) i hi']
        have hx : ts.getD i 0 ∈ ts := getD_mem_int hi' 0
        have hxt0 : t0 ≤ ts.getD i 0 := hhead _ hx
        simp only [List.getD_cons_succ, List.take_succ_cons, List.count_cons,
          beq_iff_eq, RATE_LIMIT_MAX_COMMANDS]
        split_ifs <;> first | rfl | (exfalso; omega)
    · -- same window: t0 = windowStart
      have ht0w : t0 = c.rateLimitWindowStart := by
        simp only [RATE_LIMIT_WINDOW] at hreset
        omega
      by_cases hfull : k < 1000
      · have hacc : c.commandsInWindow < RATE_LIMIT_MAX_COMMANDS := by
          simp only [RATE_LIMIT_MAX_COMMANDS]
          omega
        rw [runCommands_cons_same_accept c t0 ts hreset hacc]
        match i with
        | 0 =>
          simp only [List.getD_cons_zero, List.take_zero, List.count_nil,
            RATE_LIMIT_MAX_COMMANDS]
          split_ifs <;> first | rfl | (exfalso; omega)
        | i + 1 =>
          rw [List.getD_cons_succ]
          have hi' : i < ts.length := by simpa using hi
          rw [ih { c with commandsInWindow := c.commandsInWindow + 1 } (k + 1)
            hsort' (fun t ht => hge t (by simp [ht]))
            (by simp [RATE_LIMIT_MAX_COMMANDS]; omega) i hi']
          simp only [List.getD_cons_succ, List.take_succ_cons, List.count_cons,
            beq_iff_eq, RATE_LIMIT_MAX_COMMANDS]
          split_ifs <;> first | rfl | (exfalso; omega)
      · have hrej : RATE_LIMIT_MAX_COMMANDS ≤ c.commandsInWindow := by
          simp only [RATE_LIMIT_MAX_COMMANDS]
          omega
        rw [runCommands_cons_same_reject c t0 ts hreset hrej]
        match i with
        | 0 =>
          simp only [List.getD_cons_zero, List.take_zero, List.count_nil,
            RATE_LIMIT_MAX_COMMANDS]
          split_ifs <;> first | rfl | (exfalso; omega)
        | i + 1 =>
          rw [List.getD_cons_succ]
          have hi' : i < ts.length := by simpa using hi
          rw [ih c (k + 1) hsort' (fun t ht => hge t (by simp [ht]))
            (by simp [RATE_LIMIT_MAX_COMMANDS] at hk ⊢; omega) i hi']
          simp only [List.getD_cons_succ, List.take_succ_cons, List.count_cons,
            beq_iff_eq, RATE_LIMIT_MAX_COMMANDS]
          split_ifs <;> first | rfl | (exfalso; omega)

/-- Number of commands in the trace that arrive at time t and are processed
(pass the gate) according to the paired result list. -/
def countAcceptedAt (t : ℤ) : List ℤ → List (Option StatusCode × Bool) → ℕ
  | [], _ => 0
  | _ :: _, [] => 0
  | t0 :: ts, r :: rs =>
    (if t0 = t ∧ r.2 = true then 1 else 0) + countAcceptedAt t ts rs

theorem countAcceptedAt_zero (t : ℤ) (ts : List ℤ)
    (rs : List (Option StatusCode × Bool)) (h : ∀ u ∈ ts, u ≠ t) :
    countAcceptedAt t ts rs = 0 := by
  induction ts generalizing rs with
  | nil => simp [countAcceptedAt]
  | cons t0 ts ih =>
    match rs with
    | [] => simp [countAcceptedAt]
    | r :: rs =>
      simp only [countAcceptedAt]
      rw [ih rs (fun u hu => h u (by simp [hu]))]
      have : t0 ≠ t := h t0 (by simp)
      simp [this]

theorem rateLimit_bound_aux (ts : List ℤ) :
    ∀ (c : ClientConnection) (k : ℕ) (t : ℤ),
      List.Pairwise (· ≤ ·) ts →
      (∀ u ∈ ts, c.rateLimitWindowStart ≤ u) →
      c.commandsInWindow = min k RATE_LIMIT_MAX_COMMANDS →
      countAcceptedAt t ts (runCommands c ts) +
          (if t = c.rateLimitWindowStart then min k RATE_LIMIT_MAX_COMMANDS
           else 0) ≤
        RATE_LIMIT_MAX_COMMANDS := by
  induction ts with
  | nil =>
    intro c k t _ _ _
    simp only [runCommands, countAcceptedAt, RATE_LIMIT_MAX_COMMANDS]
    split_ifs <;> omega
  | cons t0 ts ih =>
    intro c k t hsort hge hk
    have hw : c.rateLimitWindowStart ≤ t0 := hge t0 (by simp)
    have hsort' := (List.pairwise_cons.mp hsort).2
    have hhead := (List.pairwise_cons.mp hsort).1
    have hkk : c.commandsInWindow = k ⊓ 1000 := by
      simpa [RATE_LIMIT_MAX_COMMANDS] using hk
    by_cases hreset : RATE_LIMIT_WINDOW ≤ t0 - c.rateLimitWindowStart
    · have ht0w : c.rateLimitWindowStart < t0 := by
        simp only [RATE_LIMIT_WINDOW] at hreset
        omega
      rw [runCommands_cons_reset c t0 ts hreset]
      simp only [countAcceptedAt, eq_self_iff_true, and_true]
      have hrec := ih { c with rateLimitWindowStart := t0, commandsInWindow := 1 }
        1 t hsort' (fun u hu => hhead u hu) (by simp [RATE_LIMIT_MAX_COMMANDS])
      simp only [RATE_LIMIT_MAX_COMMANDS] at hrec ⊢
      by_cases htw : t = c.rateLimitWindowStart
      · have hnone : ∀ u ∈ ts, u ≠ t := by
          intro u hu
          have := hhead u hu
          omega
        rw [countAcceptedAt_zero t ts _ hnone]
        split_ifs <;> omega
      · split_ifs at hrec ⊢ <;> omega
    · have ht0w : t0 = c.rateLimitWindowStart := by
        simp only [RATE_LIMIT_WINDOW] at hreset
        omega
      by_cases hfull : k < 1000
      · have hacc : c.commandsInWindow < RATE_LIMIT_MAX_COMMANDS := by
          simp only [RATE_LIMIT_MAX_COMMANDS]
          omega
        rw [runCommands_cons_same_accept c t0 ts hreset hacc]
        simp only [countAcceptedAt, eq_self_iff_true, and_true]
        have hrec := ih { c with commandsInWindow := c.commandsInWindow + 1 }
          (k + 1) t hsort' (fun u hu => hge u (by simp [hu]))
          (by simp [RATE_LIMIT_MAX_COMMANDS]; omega)
        simp only [RATE_LIMIT_MAX_COMMANDS] at hrec ⊢
        split_ifs at hrec ⊢ <;> omega
      · have hrej : RATE_LIMIT_MAX_COMMANDS ≤ c.commandsInWindow := by
          simp only [RATE_LIMIT_MAX_COMMANDS]
          omega
        rw [runCommands_cons_same_reject c t0 ts hreset hrej]
        simp only [countAcceptedAt]
        have hh : (if t0 = t ∧ (false : Bool) = true then (1 : ℕ) else 0) = 0 := by
          simp
        rw [hh]
        have hrec := ih c (k + 1) t hsort'
          (fun u hu => hge u (by simp [hu]))
          (by simp [RATE_LIMIT_MAX_COMMANDS] at hkk ⊢; omega)
        simp only [RATE_LIMIT_MAX_COMMANDS] at hrec ⊢
        split_ifs at hrec ⊢ <;> omega

/-- C9: Rate limiting: commands on a connection are gated per 1-second
window of the integer-second clock (time(NULL)); starting from a fresh
window counter, a command at time t is processed iff fewer than
RATE_LIMIT_MAX_COMMANDS (1000) commands arrived earlier in t's window, and
every excess command is answered with STATUS_RATE_LIMITED instead of being
processed; consequently at most 1000 commands are processed at any single
timestamp — equivalently, within any half-open 1-second window of the
server's clock. -/
theorem rateLimit_window_spec (ts : List ℤ) (c : ClientConnection)
    (hsort : List.Pairwise (· ≤ ·) ts)
    (hge : ∀ t ∈ ts, c.rateLimitWindowStart ≤ t)
    (hfresh : c.commandsInWindow = 0) :
    (∀ i, i < ts.length →
      (runCommands c ts).getD i (none, false) =
        (if (ts.take i).count (ts.getD i 0) < RATE_LIMIT_MAX_COMMANDS
         then (none, true)
         else (some StatusCode.STATUS_RATE_LIMITED, false))) ∧
    ∀ t : ℤ,
      countAcceptedAt t ts (runCommands c ts) ≤ RATE_LIMIT_MAX_COMMANDS := by
  constructor
  · intro i hi
    have h := runCommands_char ts c 0 hsort hge
      (by simpa [RATE_LIMIT_MAX_COMMANDS] using hfresh) i hi
    simpa using h
  · intro t
    have h := rateLimit_bound_aux ts c 0 t hsort hge
      (by simpa [RATE_LIMIT_MAX_COMMANDS] using hfresh)
    have h2 : (if t = c.rateLimitWindowStart then
        min 0 RATE_LIMIT_MAX_COMMANDS else 0) = 0 := by
      split_ifs <;> simp
    rw [h2] at h
    omega

/-- Witness for C9: three commands at times 0, 0, 1 on a fresh connection;
the third is processed since its window holds fewer than 1000 commands. -/
theorem rateLimit_window_spec_witness :
    (runCommands ⟨3, ConnectionState.CONN_PROCESSING, false, 0, 0, 0⟩
        [0, 0, 1]).getD 2 (none, false) =
      (if (([0, 0, 1] : List ℤ).take 2).count (([0, 0, 1] : List ℤ).getD 2 0) <
          RATE_LIMIT_MAX_COMMANDS
       then (none, true)
       else (some StatusCode.STATUS_RATE_LIMITED, false)) :=
  (rateLimit_window_spec [0, 0, 1]
    ⟨3, ConnectionState.CONN_PROCESSING, false, 0, 0, 0⟩
    (by decide) (by decide) rfl).1 2 (by decide)
